import Mathlib

/-!
Verification of the potential-field core of the eggism repository
(`simulation.js`: class `PhysicsSimulation` with `getPotential`,
`solveRadius`, `getGradient`, plus a variant module with a different
constructor default).  JavaScript doubles are idealised as real numbers.
-/

noncomputable section

/-- A point mass on the vertical axis: located at `(0, y, 0)` with mass `m`. -/
structure PointMass where
  y : ℝ
  m : ℝ

/-- The mutable configuration of `PhysicsSimulation`: mass list, gravitational
constant `G`, rotation rate `omega`. -/
structure PhysicsSimulation where
  masses : List PointMass
  G : ℝ
  omega : ℝ

/-- The mass list built by both constructors: bottom-heavy mass at `y = -1.5`,
lighter top mass at `y = 2.0`. -/
def defaultMasses : List PointMass := [⟨-1.5, 4.0⟩, ⟨2.0, 2.0⟩]

/-- The constructor of the `PhysicsSimulation` class in the simulation module
used by the application (`part_000`): `G = 1.0`, `omega = 0.0`. -/
def mkSimulation : PhysicsSimulation :=
  { masses := defaultMasses, G := 1.0, omega := 0.0 }

/-- The constructor of the `PhysicsSimulation` class in the variant module
(`part_001`): identical except `omega = 0.5`. -/
def mkSimulationAlt : PhysicsSimulation :=
  { masses := defaultMasses, G := 1.0, omega := 0.5 }

/-- Euclidean distance from `(x,y,z)` to a mass at `(0, mass.y, 0)`,
written exactly as the source computes it:
`Math.sqrt(dx*dx + dy*dy + dz*dz)` with `dx = x`, `dy = y - mass.y`, `dz = z`. -/
def distTo (x y z : ℝ) (mass : PointMass) : ℝ :=
  Real.sqrt (x * x + (y - mass.y) * (y - mass.y) + z * z)

/-- The summation loop of `getPotential`: subtracts `G*m/dist` per mass from the
accumulator; an early `return -10000` on `dist < 0.1` is modelled by `none`. -/
def gravityLoop (sim : PhysicsSimulation) (x y z : ℝ) :
    List PointMass → ℝ → Option ℝ
  | [], potential => some potential
  | mass :: rest, potential =>
    if distTo x y z mass < 0.1 then none
    else gravityLoop sim x y z rest (potential - sim.G * mass.m / distTo x y z mass)

/-- `PhysicsSimulation.getPotential`: the gravity loop followed by the
centrifugal term `-0.5*omega^2*(x^2+z^2)`; the singularity guard short-circuits
to `-10000`. -/
def getPotential (sim : PhysicsSimulation) (x y z : ℝ) : ℝ :=
  match gravityLoop sim x y z sim.masses 0 with
  | none => -10000
  | some potential => potential - 0.5 * sim.omega * sim.omega * (x * x + z * z)

/-- One bisection iteration of `solveRadius` on the bracket `(rMin, rMax)`:
evaluate the potential at the midpoint scaled along the direction; if it is
below the target set `rMin = rMid`, else `rMax = rMid`. -/
def solveStep (sim : PhysicsSimulation) (dx dy dz targetPotential : ℝ)
    (b : ℝ × ℝ) : ℝ × ℝ :=
  let rMid := (b.1 + b.2) * 0.5
  if getPotential sim (dx * rMid) (dy * rMid) (dz * rMid) < targetPotential
  then (rMid, b.2)
  else (b.1, rMid)

/-- The bracket after `n` bisection iterations, starting from `(3.0, 8.0)`. -/
def solveLoop (sim : PhysicsSimulation) (dx dy dz targetPotential : ℝ) :
    ℕ → ℝ × ℝ
  | 0 => (3.0, 8.0)
  | n + 1 => solveStep sim dx dy dz targetPotential
      (solveLoop sim dx dy dz targetPotential n)

/-- `PhysicsSimulation.solveRadius`: 15 bisection iterations on `[3.0, 8.0]`,
returning the midpoint of the final bracket. -/
def solveRadius (sim : PhysicsSimulation) (dx dy dz targetPotential : ℝ) : ℝ :=
  ((solveLoop sim dx dy dz targetPotential 15).1
    + (solveLoop sim dx dy dz targetPotential 15).2) * 0.5

/-- The accumulation loop of `getGradient`: masses with `r < 0.1` are skipped,
all others add `(G*m/r3) * (dx, dy, dz)` with `r3 = r2 * r`. -/
def gradientLoop (sim : PhysicsSimulation) (x y z : ℝ) :
    List PointMass → ℝ × ℝ × ℝ → ℝ × ℝ × ℝ
  | [], g => g
  | mass :: rest, g =>
    let r2 := x * x + (y - mass.y) * (y - mass.y) + z * z
    let r := Real.sqrt r2
    let r3 := r2 * r
    if r < 0.1 then gradientLoop sim x y z rest g
    else gradientLoop sim x y z rest
      (g.1 + sim.G * mass.m / r3 * x,
       g.2.1 + sim.G * mass.m / r3 * (y - mass.y),
       g.2.2 + sim.G * mass.m / r3 * z)

/-- `PhysicsSimulation.getGradient`: the gravity-gradient loop followed by
subtracting `omega^2 * x` from the x-component and `omega^2 * z` from the
z-component. -/
def getGradient (sim : PhysicsSimulation) (x y z : ℝ) : ℝ × ℝ × ℝ :=
  let g := gradientLoop sim x y z sim.masses (0, 0, 0)
  (g.1 - sim.omega * sim.omega * x, g.2.1, g.2.2 - sim.omega * sim.omega * z)

/-- The potential formula as the spec writes it:
`V(x,y,z) = -Σ_i (G·m_i / dist_i) - 0.5·omega²·(x²+z²)`. -/
def specPotential (sim : PhysicsSimulation) (x y z : ℝ) : ℝ :=
  -((sim.masses.map (fun mass => sim.G * mass.m / distTo x y z mass)).sum)
    - 0.5 * sim.omega * sim.omega * (x * x + z * z)

/-- One mass's contribution to the gradient as the spec writes it:
`(G·m_i / r_i³)·(x, y - m_i.y, z)` when `r_i ≥ 0.1`, nothing otherwise. -/
def gradSpecTerm (sim : PhysicsSimulation) (x y z : ℝ) (mass : PointMass) :
    ℝ × ℝ × ℝ :=
  if distTo x y z mass < 0.1 then (0, 0, 0)
  else (sim.G * mass.m / distTo x y z mass ^ 3 * x,
        sim.G * mass.m / distTo x y z mass ^ 3 * (y - mass.y),
        sim.G * mass.m / distTo x y z mass ^ 3 * z)

/-- The gradient formula as the spec writes it: the componentwise sum of the
per-mass contributions over the non-singular masses, with `omega²·x` subtracted
from the x-component and `omega²·z` from the z-component. -/
def specGradient (sim : PhysicsSimulation) (x y z : ℝ) : ℝ × ℝ × ℝ :=
  ((sim.masses.map fun mass => (gradSpecTerm sim x y z mass).1).sum
      - sim.omega * sim.omega * x,
   (sim.masses.map fun mass => (gradSpecTerm sim x y z mass).2.1).sum,
   (sim.masses.map fun mass => (gradSpecTerm sim x y z mass).2.2).sum
      - sim.omega * sim.omega * z)

end

/-! ## Helper lemmas -/

/-- When every mass in the list is at distance at least `0.1`, the gravity loop
never short-circuits and computes the accumulator minus the sum of `G*m/dist`. -/
theorem gravityLoop_eq_sum (sim : PhysicsSimulation) (x y z : ℝ) :
    ∀ (l : List PointMass) (acc : ℝ),
      (∀ mass ∈ l, 0.1 ≤ distTo x y z mass) →
      gravityLoop sim x y z l acc =
        some (acc - (l.map (fun mass => sim.G * mass.m / distTo x y z mass)).sum) := by
  intro l
  induction l with
  | nil => intro acc _; simp [gravityLoop]
  | cons mass rest ih =>
    intro acc h
    have hm : 0.1 ≤ distTo x y z mass := h mass (List.mem_cons_self mass rest)
    have hrest : ∀ m ∈ rest, 0.1 ≤ distTo x y z m :=
      fun m hmem => h m (List.mem_cons_of_mem mass hmem)
    rw [gravityLoop, if_neg (not_lt.mpr hm), ih _ hrest]
    simp only [List.map_cons, List.sum_cons, Option.some.injEq]
    ring

/-- When every mass is at distance at least `0.1`, `getPotential` equals the
spec's closed-form sum. -/
theorem getPotential_of_far (sim : PhysicsSimulation) (x y z : ℝ)
    (h : ∀ mass ∈ sim.masses, 0.1 ≤ distTo x y z mass) :
    getPotential sim x y z = specPotential sim x y z := by
  rw [getPotential, gravityLoop_eq_sum sim x y z sim.masses 0 h]
  simp only [specPotential]
  ring

/-- If some mass in the list is closer than `0.1`, the gravity loop
short-circuits to `none` whatever the accumulator. -/
theorem gravityLoop_eq_none (sim : PhysicsSimulation) (x y z : ℝ) :
    ∀ (l : List PointMass) (acc : ℝ),
      (∃ mass ∈ l, distTo x y z mass < 0.1) →
      gravityLoop sim x y z l acc = none := by
  intro l
  induction l with
  | nil => intro acc h; exact absurd h (by simp)
  | cons mass rest ih =>
    intro acc h
    by_cases hm : distTo x y z mass < 0.1
    · rw [gravityLoop, if_pos hm]
    · obtain ⟨m, hmem, hlt⟩ := h
      rcases List.mem_cons.mp hmem with heq | hmem2
      · exact absurd (heq ▸ hlt) hm
      · rw [gravityLoop, if_neg hm]
        exact ih _ ⟨m, hmem2, hlt⟩

/-- If some configured mass is closer than `0.1`, `getPotential` returns the
sentinel `-10000`. -/
theorem getPotential_sentinel (sim : PhysicsSimulation) (x y z : ℝ)
    (h : ∃ mass ∈ sim.masses, distTo x y z mass < 0.1) :
    getPotential sim x y z = -10000 := by
  rw [getPotential, gravityLoop_eq_none sim x y z sim.masses 0 h]

/-! ## C1: the potential formula -/

/-- Claim C1: away from the `0.1` singularity radius of every mass,
`getPotential` returns exactly `-Σ_i (G·m_i / dist_i) - 0.5·omega²·(x²+z²)`;
in particular a single mass `m` at the origin with `omega = 0` gives
`getPotential r 0 0 = -(G·m/r)` outside the singularity radius. -/
theorem getPotential_formula :
    (∀ (sim : PhysicsSimulation) (x y z : ℝ),
        (∀ mass ∈ sim.masses, 0.1 ≤ distTo x y z mass) →
        getPotential sim x y z = specPotential sim x y z) ∧
    (∀ (G m r : ℝ), 0.1 ≤ r →
        getPotential ⟨[⟨0, m⟩], G, 0⟩ r 0 0 = -(G * m / r)) := by
  constructor
  · exact getPotential_of_far
  · intro G m r hr
    have hr0 : (0:ℝ) ≤ r := le_trans (by norm_num) hr
    have hd : distTo r 0 0 ⟨0, m⟩ = r := by
      simp only [distTo]
      rw [show r * r + (0 - (0:ℝ)) * (0 - 0) + 0 * 0 = r * r by ring]
      exact Real.sqrt_mul_self hr0
    have hfar : ∀ mass ∈ ([⟨0, m⟩] : List PointMass), 0.1 ≤ distTo r 0 0 mass := by
      intro mass hmem
      simp only [List.mem_singleton] at hmem
      rw [hmem, hd]; exact hr
    rw [getPotential_of_far _ _ _ _ hfar]
    simp only [specPotential, List.map_cons, List.map_nil, List.sum_cons,
      List.sum_nil, hd]
    ring

/-- Witness for C1 at the concrete input `G = 1`, `m = 1`, `r = 2`. -/
theorem getPotential_formula_witness :
    getPotential ⟨[⟨0, 1⟩], 1, 0⟩ 2 0 0 = -(1 * 1 / 2) :=
  getPotential_formula.2 1 1 2 (by norm_num)

/-! ## C7: rotation invariance about the vertical axis -/

/-- Rotating the query point about the vertical axis leaves each mass distance
unchanged (all masses sit on that axis). -/
theorem distTo_rotate (x y z θ : ℝ) (mass : PointMass) :
    distTo (x * Real.cos θ - z * Real.sin θ) y (x * Real.sin θ + z * Real.cos θ) mass
      = distTo x y z mass := by
  have hpyth := Real.sin_sq_add_cos_sq θ
  simp only [distTo]
  congr 1
  nlinarith [hpyth]

/-- Claim C7: `getPotential` is invariant under any rotation about the vertical
axis, since every configured mass lies on that axis. -/
theorem getPotential_rotation_invariant (sim : PhysicsSimulation) (x y z θ : ℝ) :
    getPotential sim x y z =
      getPotential sim (x * Real.cos θ - z * Real.sin θ) y
        (x * Real.sin θ + z * Real.cos θ) := by
  have hpyth := Real.sin_sq_add_cos_sq θ
  have hloop : ∀ (l : List PointMass) (acc : ℝ),
      gravityLoop sim x y z l acc =
        gravityLoop sim (x * Real.cos θ - z * Real.sin θ) y
          (x * Real.sin θ + z * Real.cos θ) l acc := by
    intro l
    induction l with
    | nil => intro acc; rfl
    | cons mass rest ih =>
      intro acc
      rw [gravityLoop, gravityLoop, distTo_rotate]
      by_cases hm : distTo x y z mass < 0.1
      · rw [if_pos hm, if_pos hm]
      · rw [if_neg hm, if_neg hm, ih]
  have hxz : (x * Real.cos θ - z * Real.sin θ) * (x * Real.cos θ - z * Real.sin θ)
      + (x * Real.sin θ + z * Real.cos θ) * (x * Real.sin θ + z * Real.cos θ)
      = x * x + z * z := by nlinarith [hpyth]
  rw [getPotential, getPotential, ← hloop, hxz]

/-! ## C2: bisection structure of solveRadius -/

/-- The bracket width exactly halves each iteration: after `n` iterations it is
`(8 - 3) / 2^n`. -/
theorem solveLoop_width (sim : PhysicsSimulation) (dx dy dz t : ℝ) :
    ∀ n : ℕ, (solveLoop sim dx dy dz t n).2 - (solveLoop sim dx dy dz t n).1
      = 5 / 2 ^ n := by
  intro n
  induction n with
  | zero => norm_num [solveLoop]
  | succ n ih =>
    have h2 : (0:ℝ) < 2 ^ n := by positivity
    have ih2 : ((solveLoop sim dx dy dz t n).2 - (solveLoop sim dx dy dz t n).1)
        * 2 ^ n = 5 := by
      rw [ih]; field_simp
    rw [solveLoop, solveStep]
    by_cases hc : getPotential sim
        (dx * (((solveLoop sim dx dy dz t n).1 + (solveLoop sim dx dy dz t n).2) * 0.5))
        (dy * (((solveLoop sim dx dy dz t n).1 + (solveLoop sim dx dy dz t n).2) * 0.5))
        (dz * (((solveLoop sim dx dy dz t n).1 + (solveLoop sim dx dy dz t n).2) * 0.5)) < t
    · simp only [if_pos hc]
      rw [pow_succ, eq_div_iff (by positivity)]
      linear_combination ih2
    · simp only [if_neg hc]
      rw [pow_succ, eq_div_iff (by positivity)]
      linear_combination ih2

/-- The bracket stays ordered and inside `[3, 8]` at every iteration. -/
theorem solveLoop_bounds (sim : PhysicsSimulation) (dx dy dz t : ℝ) :
    ∀ n : ℕ, 3 ≤ (solveLoop sim dx dy dz t n).1 ∧
      (solveLoop sim dx dy dz t n).1 ≤ (solveLoop sim dx dy dz t n).2 ∧
      (solveLoop sim dx dy dz t n).2 ≤ 8 := by
  intro n
  induction n with
  | zero => norm_num [solveLoop]
  | succ n ih =>
    obtain ⟨h3, hle, h8⟩ := ih
    rw [solveLoop, solveStep]
    by_cases hc : getPotential sim
        (dx * (((solveLoop sim dx dy dz t n).1 + (solveLoop sim dx dy dz t n).2) * 0.5))
        (dy * (((solveLoop sim dx dy dz t n).1 + (solveLoop sim dx dy dz t n).2) * 0.5))
        (dz * (((solveLoop sim dx dy dz t n).1 + (solveLoop sim dx dy dz t n).2) * 0.5)) < t
    · simp only [if_pos hc]
      refine ⟨by linarith, by linarith, by linarith⟩
    · simp only [if_neg hc]
      refine ⟨by linarith, by linarith, by linarith⟩

/-- Claim C2: `solveRadius` iterates the bisection step 15 times from the fixed
bracket `(3.0, 8.0)` — each iteration moving `rMin` to the midpoint when the
potential there is below the target and `rMax` to the midpoint otherwise — and
returns the midpoint of the final bracket, whose width is `(8 - 3) / 2^15`. -/
theorem solveRadius_bisection (sim : PhysicsSimulation) (dx dy dz t : ℝ) :
    solveLoop sim dx dy dz t 0 = (3.0, 8.0) ∧
    (∀ n : ℕ, solveLoop sim dx dy dz t (n + 1) =
      solveStep sim dx dy dz t (solveLoop sim dx dy dz t n)) ∧
    solveRadius sim dx dy dz t =
      ((solveLoop sim dx dy dz t 15).1 + (solveLoop sim dx dy dz t 15).2) * 0.5 ∧
    (solveLoop sim dx dy dz t 15).2 - (solveLoop sim dx dy dz t 15).1
      = (8.0 - 3.0) / 2 ^ 15 := by
  refine ⟨rfl, fun n => rfl, rfl, ?_⟩
  rw [solveLoop_width]
  norm_num

/-! ## C8: solveRadius is total and bracketed -/

/-- Claim C8: for every configuration, direction and target, `solveRadius`
returns a real value lying within the initial bracket `[3.0, 8.0]`. -/
theorem solveRadius_in_bracket (sim : PhysicsSimulation) (dx dy dz t : ℝ) :
    3 ≤ solveRadius sim dx dy dz t ∧ solveRadius sim dx dy dz t ≤ 8 := by
  obtain ⟨h3, hle, h8⟩ := solveLoop_bounds sim dx dy dz t 15
  rw [solveRadius]
  constructor <;> [linarith; linarith]

/-! ## C10: monotonicity of solveRadius in the target -/

/-- A bisection step never leaves the current bracket. -/
theorem solveStep_subset (sim : PhysicsSimulation) (dx dy dz t : ℝ)
    (b : ℝ × ℝ) (h : b.1 ≤ b.2) :
    b.1 ≤ (solveStep sim dx dy dz t b).1 ∧ (solveStep sim dx dy dz t b).2 ≤ b.2 := by
  rw [solveStep]
  by_cases hc : getPotential sim (dx * ((b.1 + b.2) * 0.5))
      (dy * ((b.1 + b.2) * 0.5)) (dz * ((b.1 + b.2) * 0.5)) < t
  · simp only [if_pos hc]
    exact ⟨by linarith, le_refl _⟩
  · simp only [if_neg hc]
    exact ⟨le_refl _, by linarith⟩

/-- For targets `t1 ≤ t2` the two bisection runs either agree exactly or the
whole `t1` bracket lies at or below the whole `t2` bracket. -/
theorem solveLoop_target_mono (sim : PhysicsSimulation) (dx dy dz : ℝ)
    {t1 t2 : ℝ} (h : t1 ≤ t2) :
    ∀ n : ℕ, solveLoop sim dx dy dz t1 n = solveLoop sim dx dy dz t2 n ∨
      (solveLoop sim dx dy dz t1 n).2 ≤ (solveLoop sim dx dy dz t2 n).1 := by
  intro n
  induction n with
  | zero => exact Or.inl rfl
  | succ n ih =>
    rcases ih with heq | hsep
    · rw [solveLoop, solveLoop, heq, solveStep, solveStep]
      set b := solveLoop sim dx dy dz t2 n with hb
      set v := getPotential sim (dx * ((b.1 + b.2) * 0.5))
        (dy * ((b.1 + b.2) * 0.5)) (dz * ((b.1 + b.2) * 0.5)) with hv
      by_cases h1 : v < t1
      · rw [if_pos h1, if_pos (lt_of_lt_of_le h1 h)]
        exact Or.inl rfl
      · rw [if_neg h1]
        by_cases h2 : v < t2
        · rw [if_pos h2]
          exact Or.inr (le_refl _)
        · rw [if_neg h2]
          exact Or.inl rfl
    · obtain ⟨_, hle1, _⟩ := solveLoop_bounds sim dx dy dz t1 n
      obtain ⟨_, hle2, _⟩ := solveLoop_bounds sim dx dy dz t2 n
      obtain ⟨_, hsub1⟩ := solveStep_subset sim dx dy dz t1 _ hle1
      obtain ⟨hsub2, _⟩ := solveStep_subset sim dx dy dz t2 _ hle2
      refine Or.inr ?_
      rw [solveLoop, solveLoop]
      exact le_trans hsub1 (le_trans hsep hsub2)

/-- Claim C10: for a fixed configuration and direction, `solveRadius` is
monotone non-decreasing in its target-potential argument, whatever the shape of
the potential along the ray. -/
theorem solveRadius_target_mono (sim : PhysicsSimulation) (dx dy dz : ℝ)
    {t1 t2 : ℝ} (h : t1 ≤ t2) :
    solveRadius sim dx dy dz t1 ≤ solveRadius sim dx dy dz t2 := by
  rcases solveLoop_target_mono sim dx dy dz h 15 with heq | hsep
  · rw [solveRadius, solveRadius, heq]
  · obtain ⟨_, hle1, _⟩ := solveLoop_bounds sim dx dy dz t1 15
    obtain ⟨_, hle2, _⟩ := solveLoop_bounds sim dx dy dz t2 15
    rw [solveRadius, solveRadius]
    linarith

/-- Witness for C10 at the default simulation, direction `(1,0,0)`, targets
`-2 ≤ -1`. -/
theorem solveRadius_target_mono_witness :
    solveRadius mkSimulation 1 0 0 (-2) ≤ solveRadius mkSimulation 1 0 0 (-1) :=
  solveRadius_target_mono mkSimulation 1 0 0 (by norm_num)

/-! ## Gradient lemmas -/

/-- The gradient loop adds, to its accumulator, exactly the spec's per-mass
contributions (singular masses contributing nothing). -/
theorem gradientLoop_eq_sum (sim : PhysicsSimulation) (x y z : ℝ) :
    ∀ (l : List PointMass) (g : ℝ × ℝ × ℝ),
      gradientLoop sim x y z l g =
        (g.1 + (l.map fun mass => (gradSpecTerm sim x y z mass).1).sum,
         g.2.1 + (l.map fun mass => (gradSpecTerm sim x y z mass).2.1).sum,
         g.2.2 + (l.map fun mass => (gradSpecTerm sim x y z mass).2.2).sum) := by
  intro l
  induction l with
  | nil => intro g; simp [gradientLoop]
  | cons mass rest ih =>
    intro g
    have hr2 : (0:ℝ) ≤ x * x + (y - mass.y) * (y - mass.y) + z * z :=
      add_nonneg (add_nonneg (mul_self_nonneg x) (mul_self_nonneg _))
        (mul_self_nonneg z)
    have hdist : Real.sqrt (x * x + (y - mass.y) * (y - mass.y) + z * z)
        = distTo x y z mass := rfl
    have hsq : distTo x y z mass ^ 2
        = x * x + (y - mass.y) * (y - mass.y) + z * z := Real.sq_sqrt hr2
    have hcube : distTo x y z mass ^ 3
        = (x * x + (y - mass.y) * (y - mass.y) + z * z) * distTo x y z mass := by
      rw [pow_succ, hsq]
    by_cases hsing : distTo x y z mass < 0.1
    · rw [gradientLoop]
      simp only [hdist, if_pos hsing, ih]
      simp only [gradSpecTerm, if_pos hsing, List.map_cons, List.sum_cons]
      norm_num
    · rw [gradientLoop]
      simp only [hdist, if_neg hsing, ih]
      simp only [gradSpecTerm, if_neg hsing, List.map_cons, List.sum_cons]
      rw [hcube]
      refine Prod.ext ?_ (Prod.ext ?_ ?_) <;> simp <;> ring

/-- `getGradient` computes exactly the spec's filtered-sum formula. -/
theorem getGradient_eq_spec (sim : PhysicsSimulation) (x y z : ℝ) :
    getGradient sim x y z = specGradient sim x y z := by
  rw [getGradient, gradientLoop_eq_sum, specGradient]
  norm_num

/-! ## C5: the singularity asymmetry -/

/-- Claim C5: at a point closer than `0.1` to some configured mass,
`getPotential` short-circuits to the sentinel `-10000`, while `getGradient`
merely skips singular masses and still returns the spec's filtered sum of the
other masses' contributions plus the rotation term. -/
theorem singularity_asymmetry (sim : PhysicsSimulation) (x y z : ℝ)
    (h : ∃ mass ∈ sim.masses, distTo x y z mass < 0.1) :
    getPotential sim x y z = -10000 ∧
    getGradient sim x y z = specGradient sim x y z :=
  ⟨getPotential_sentinel sim x y z h, getGradient_eq_spec sim x y z⟩

/-- Witness for C5: a single mass at the origin queried at the origin itself
(distance `0 < 0.1`). -/
theorem singularity_asymmetry_witness :
    getPotential ⟨[⟨0, 1⟩], 1, 0⟩ 0 0 0 = -10000 ∧
    getGradient ⟨[⟨0, 1⟩], 1, 0⟩ 0 0 0 = specGradient ⟨[⟨0, 1⟩], 1, 0⟩ 0 0 0 := by
  refine singularity_asymmetry _ 0 0 0 ⟨⟨0, 1⟩, by simp, ?_⟩
  simp only [distTo]
  norm_num

/-! ## C6: the gradient formula -/

/-- Claim C6: `getGradient` returns the raw vector
`Σ_{r_i ≥ 0.1} (G·m_i/r_i³)·(x, y - m_i.y, z)` with `omega²·x` and `omega²·z`
subtracted from the x- and z-components; in particular, for a single positive
mass at the origin with `omega = 0`, the x-component at `(x,0,0)` is positive
for every `x > 0.1`. -/
theorem getGradient_formula :
    (∀ (sim : PhysicsSimulation) (x y z : ℝ),
        getGradient sim x y z = specGradient sim x y z) ∧
    (∀ (G m x : ℝ), 0 < G → 0 < m → 0.1 < x →
        0 < (getGradient ⟨[⟨0, m⟩], G, 0⟩ x 0 0).1) := by
  refine ⟨getGradient_eq_spec, ?_⟩
  intro G m x hG hm hx
  have hx0 : (0:ℝ) < x := lt_trans (by norm_num) hx
  have hd : distTo x 0 0 ⟨0, m⟩ = x := by
    simp only [distTo]
    rw [show x * x + (0 - (0:ℝ)) * (0 - 0) + 0 * 0 = x * x by ring]
    exact Real.sqrt_mul_self hx0.le
  rw [getGradient_eq_spec]
  simp only [specGradient, gradSpecTerm, hd, if_neg (not_lt.mpr hx.le),
    List.map_cons, List.map_nil, List.sum_cons, List.sum_nil]
  have : G * m / x ^ 3 * x > 0 := by positivity
  norm_num
  linarith

/-- Witness for C6 at `G = 1`, `m = 1`, `x = 1`. -/
theorem getGradient_formula_witness :
    0 < (getGradient ⟨[⟨0, 1⟩], 1, 0⟩ 1 0 0).1 :=
  getGradient_formula.2 1 1 1 (by norm_num) (by norm_num) (by norm_num)

/-! ## C9: constructor defaults -/

/-- Counterexample to C9 as stated: the repository also ships a
`PhysicsSimulation` class (the variant module `part_001`) whose freshly
constructed instance has `omega = 0.5`, not `0.0`. -/
theorem mkSimulationAlt_omega_ne_zero :
    mkSimulationAlt.omega = 0.5 ∧ mkSimulationAlt.omega ≠ 0 := by
  constructor
  · rfl
  · show (0.5 : ℝ) ≠ 0
    norm_num

/-- Claim C9 (amended): the constructor of the simulation module used by the
application (`part_000`) produces `G = 1.0`, `omega = 0.0` and the default
two-mass configuration; the variant module's constructor (`part_001`)
differs only in defaulting `omega` to `0.5`. -/
theorem constructor_defaults :
    mkSimulation.masses = [⟨-1.5, 4.0⟩, ⟨2.0, 2.0⟩] ∧
    mkSimulation.G = 1.0 ∧ mkSimulation.omega = 0.0 ∧
    mkSimulationAlt.masses = [⟨-1.5, 4.0⟩, ⟨2.0, 2.0⟩] ∧
    mkSimulationAlt.G = 1.0 ∧ mkSimulationAlt.omega = 0.5 :=
  ⟨rfl, rfl, rfl, rfl, rfl, rfl⟩

/-! ## Radial monotonicity of the default-configuration potential -/

/-- Square-root bounds used on the solver bracket: an argument in `[1, 100]`
has square root in `[1, 10]`. -/
theorem sqrt_mem_unit_interval {q : ℝ} (h1 : 1 ≤ q) (h2 : q ≤ 100) :
    1 ≤ Real.sqrt q ∧ Real.sqrt q ≤ 10 := by
  constructor
  · have h := Real.sqrt_le_sqrt h1
    rwa [Real.sqrt_one] at h
  · have h100 : Real.sqrt 100 = 10 := by
      rw [show (100:ℝ) = 10 ^ 2 by norm_num, Real.sqrt_sq (by norm_num : (0:ℝ) ≤ 10)]
    have h := Real.sqrt_le_sqrt h2
    rwa [h100] at h

/-- For distances in `[1, 10]`, the decrease of the inverse distance dominates
the squared-distance increase scaled by `1/2000`. -/
theorem one_div_gap {s1 s2 : ℝ} (h11 : 1 ≤ s1) (h110 : s1 ≤ 10)
    (h21 : 1 ≤ s2) (h210 : s2 ≤ 10) (h12 : s1 ≤ s2) :
    (s2 ^ 2 - s1 ^ 2) / 2000 ≤ 1 / s1 - 1 / s2 := by
  have hp1 : 0 < s1 := by linarith
  have hp2 : 0 < s2 := by linarith
  have he : 1 / s1 - 1 / s2 = (s2 - s1) / (s1 * s2) := by
    field_simp
  have hA : s1 * s2 ≤ 100 := by nlinarith
  have hB : (s1 + s2) * (s1 * s2) ≤ 2000 := by
    have h20 : s1 + s2 ≤ 20 := by linarith
    have := mul_le_mul h20 hA (by positivity) (by norm_num : (0:ℝ) ≤ 20)
    linarith
  have hd : (0:ℝ) ≤ s2 - s1 := by linarith
  have hkey := mul_le_mul_of_nonneg_left hB hd
  rw [he, div_le_div_iff (by norm_num) (by positivity)]
  nlinarith [hkey]

/-- The polynomial core of the monotonicity bound: for `T ≥ 6`, `d ≥ 0`,
the gravity terms beat the centrifugal bound by at least `0.0085·d`. -/
theorem gap_poly (T u d : ℝ) (hT : 6 ≤ T) (hd : 0 ≤ d) :
    d * 0.0085 + 0.00125 * ((1 - u * u) * (d * T)) ≤
      4 * (d * (T + 3 * u)) / 2000 + 2 * (d * (T - 4 * u)) / 2000 := by
  have hinner : 0 ≤ 3.5 * T + 4 * u + 2.5 * (T * (u * u)) - 17 := by
    nlinarith [sq_nonneg (u + 2 / 15),
      mul_nonneg (by linarith : (0:ℝ) ≤ T - 6) (mul_self_nonneg u)]
  nlinarith [mul_nonneg hd hinner]

/-- Bounds on the squared distance to the lower mass `(0,-1.5,0)` along a unit
ray at radius `r ∈ [3,8]`. -/
theorem q1_bounds (dy r : ℝ) (hdy : dy * dy ≤ 1) (h3 : 3 ≤ r) (h8 : r ≤ 8) :
    1 ≤ r * r + 3 * r * dy + 2.25 ∧ r * r + 3 * r * dy + 2.25 ≤ 100 := by
  have hdyl : -1 ≤ dy := by nlinarith
  have hdyu : dy ≤ 1 := by nlinarith
  constructor
  · nlinarith [mul_nonneg (by linarith : (0:ℝ) ≤ 3 * r) (by linarith : (0:ℝ) ≤ dy + 1),
      mul_nonneg (by linarith : (0:ℝ) ≤ r - 3) (by linarith : (0:ℝ) ≤ r)]
  · nlinarith [mul_nonneg (by linarith : (0:ℝ) ≤ 3 * r) (by linarith : (0:ℝ) ≤ 1 - dy),
      mul_nonneg (by linarith : (0:ℝ) ≤ 8 - r) (by linarith : (0:ℝ) ≤ r - 3)]

/-- Bounds on the squared distance to the upper mass `(0,2,0)` along a unit
ray at radius `r ∈ [3,8]`. -/
theorem q2_bounds (dy r : ℝ) (hdy : dy * dy ≤ 1) (h3 : 3 ≤ r) (h8 : r ≤ 8) :
    1 ≤ r * r - 4 * r * dy + 4 ∧ r * r - 4 * r * dy + 4 ≤ 100 := by
  have hdyl : -1 ≤ dy := by nlinarith
  have hdyu : dy ≤ 1 := by nlinarith
  constructor
  · nlinarith [mul_nonneg (by linarith : (0:ℝ) ≤ 4 * r) (by linarith : (0:ℝ) ≤ 1 - dy),
      mul_nonneg (by linarith : (0:ℝ) ≤ r - 3) (by linarith : (0:ℝ) ≤ r - 1)]
  · nlinarith [mul_nonneg (by linarith : (0:ℝ) ≤ 4 * r) (by linarith : (0:ℝ) ≤ dy + 1),
      mul_nonneg (by linarith : (0:ℝ) ≤ 8 - r) (by linarith : (0:ℝ) ≤ r - 3)]

/-- Closed form of the default-configuration potential along a unit ray at a
radius in the solver bracket. -/
theorem getPotential_on_ray (ω dx dy dz : ℝ)
    (hunit : dx * dx + dy * dy + dz * dz = 1)
    (r : ℝ) (h3 : 3 ≤ r) (h8 : r ≤ 8) :
    getPotential ⟨defaultMasses, 1, ω⟩ (r * dx) (r * dy) (r * dz)
      = -(4 / Real.sqrt (r * r + 3 * r * dy + 2.25))
        - 2 / Real.sqrt (r * r - 4 * r * dy + 4)
        - 0.5 * ω * ω * ((r * dx) * (r * dx) + (r * dz) * (r * dz)) := by
  have hdy : dy * dy ≤ 1 := by nlinarith [mul_self_nonneg dx, mul_self_nonneg dz]
  have hd1 : distTo (r * dx) (r * dy) (r * dz) ⟨-1.5, 4.0⟩
      = Real.sqrt (r * r + 3 * r * dy + 2.25) := by
    show Real.sqrt ((r * dx) * (r * dx) + (r * dy - (-1.5)) * (r * dy - (-1.5))
      + (r * dz) * (r * dz)) = _
    congr 1
    linear_combination (r * r) * hunit
  have hd2 : distTo (r * dx) (r * dy) (r * dz) ⟨2.0, 2.0⟩
      = Real.sqrt (r * r - 4 * r * dy + 4) := by
    show Real.sqrt ((r * dx) * (r * dx) + (r * dy - 2.0) * (r * dy - 2.0)
      + (r * dz) * (r * dz)) = _
    congr 1
    linear_combination (r * r) * hunit
  have hb1 := q1_bounds dy r hdy h3 h8
  have hb2 := q2_bounds dy r hdy h3 h8
  have hs1 := sqrt_mem_unit_interval hb1.1 hb1.2
  have hs2 := sqrt_mem_unit_interval hb2.1 hb2.2
  have hfar : ∀ mass ∈ (⟨defaultMasses, 1, ω⟩ : PhysicsSimulation).masses,
      0.1 ≤ distTo (r * dx) (r * dy) (r * dz) mass := by
    intro mass hmem
    simp only [defaultMasses, List.mem_cons, List.not_mem_nil, or_false] at hmem
    rcases hmem with h | h
    · rw [h, hd1]; linarith [hs1.1]
    · rw [h, hd2]; linarith [hs2.1]
  rw [getPotential_of_far _ _ _ _ hfar]
  simp only [specPotential, defaultMasses, List.map_cons, List.map_nil,
    List.sum_cons, List.sum_nil, hd1, hd2]
  ring

/-- Quantitative radial monotonicity: along any unit ray, for the default mass
configuration with `G = 1` and `0 ≤ omega ≤ 0.05`, the potential grows by at
least `0.0085` per unit of radius across `[3, 8]`. -/
theorem getPotential_gap (ω dx dy dz r1 r2 : ℝ)
    (hω0 : 0 ≤ ω) (hω : ω ≤ 0.05)
    (hunit : dx * dx + dy * dy + dz * dz = 1)
    (h3 : 3 ≤ r1) (h12 : r1 ≤ r2) (h8 : r2 ≤ 8) :
    getPotential ⟨defaultMasses, 1, ω⟩ (r1 * dx) (r1 * dy) (r1 * dz)
        + (r2 - r1) * 0.0085
      ≤ getPotential ⟨defaultMasses, 1, ω⟩ (r2 * dx) (r2 * dy) (r2 * dz) := by
  have hdy : dy * dy ≤ 1 := by
    linarith [mul_self_nonneg dx, mul_self_nonneg dz, hunit]
  have hdyl : -1 ≤ dy := by linarith [sq_nonneg (dy + 1), hdy]
  have hdyu : dy ≤ 1 := by linarith [sq_nonneg (dy - 1), hdy]
  have h31 : 3 ≤ r2 := by linarith
  have h81 : r1 ≤ 8 := by linarith
  have hb11 := q1_bounds dy r1 hdy h3 h81
  have hb12 := q1_bounds dy r2 hdy h31 h8
  have hb21 := q2_bounds dy r1 hdy h3 h81
  have hb22 := q2_bounds dy r2 hdy h31 h8
  have hs11 := sqrt_mem_unit_interval hb11.1 hb11.2
  have hs12 := sqrt_mem_unit_interval hb12.1 hb12.2
  have hs21 := sqrt_mem_unit_interval hb21.1 hb21.2
  have hs22 := sqrt_mem_unit_interval hb22.1 hb22.2
  have hq1mono : r1 * r1 + 3 * r1 * dy + 2.25 ≤ r2 * r2 + 3 * r2 * dy + 2.25 := by
    linarith [mul_nonneg (by linarith : (0:ℝ) ≤ r2 - r1)
      (by linarith : (0:ℝ) ≤ r1 + r2 + 3 * dy)]
  have hq2mono : r1 * r1 - 4 * r1 * dy + 4 ≤ r2 * r2 - 4 * r2 * dy + 4 := by
    linarith [mul_nonneg (by linarith : (0:ℝ) ≤ r2 - r1)
      (by linarith : (0:ℝ) ≤ r1 + r2 - 4 * dy)]
  have hm1 : Real.sqrt (r1 * r1 + 3 * r1 * dy + 2.25)
      ≤ Real.sqrt (r2 * r2 + 3 * r2 * dy + 2.25) := Real.sqrt_le_sqrt hq1mono
  have hm2 : Real.sqrt (r1 * r1 - 4 * r1 * dy + 4)
      ≤ Real.sqrt (r2 * r2 - 4 * r2 * dy + 4) := Real.sqrt_le_sqrt hq2mono
  have hg1 := one_div_gap hs11.1 hs11.2 hs12.1 hs12.2 hm1
  have hg2 := one_div_gap hs21.1 hs21.2 hs22.1 hs22.2 hm2
  rw [Real.sq_sqrt (by linarith [hb12.1] : (0:ℝ) ≤ r2 * r2 + 3 * r2 * dy + 2.25),
    Real.sq_sqrt (by linarith [hb11.1] : (0:ℝ) ≤ r1 * r1 + 3 * r1 * dy + 2.25)] at hg1
  rw [Real.sq_sqrt (by linarith [hb22.1] : (0:ℝ) ≤ r2 * r2 - 4 * r2 * dy + 4),
    Real.sq_sqrt (by linarith [hb21.1] : (0:ℝ) ≤ r1 * r1 - 4 * r1 * dy + 4)] at hg2
  have hxz : dx * dx + dz * dz = 1 - dy * dy := by linarith [hunit]
  have hω2 : ω * ω ≤ 0.0025 := by
    have h := mul_le_mul hω hω hω0 (by norm_num : (0:ℝ) ≤ 0.05)
    linarith [h]
  have hcfac : (0:ℝ) ≤ (1 - dy * dy) * ((r2 - r1) * (r1 + r2)) :=
    mul_nonneg (by linarith) (mul_nonneg (by linarith) (by linarith))
  have hcent : 0.5 * ω * ω * ((r2 * dx) * (r2 * dx) + (r2 * dz) * (r2 * dz))
      - 0.5 * ω * ω * ((r1 * dx) * (r1 * dx) + (r1 * dz) * (r1 * dz))
      ≤ 0.00125 * ((1 - dy * dy) * ((r2 - r1) * (r1 + r2))) := by
    have heq : 0.5 * ω * ω * ((r2 * dx) * (r2 * dx) + (r2 * dz) * (r2 * dz))
        - 0.5 * ω * ω * ((r1 * dx) * (r1 * dx) + (r1 * dz) * (r1 * dz))
        = 0.5 * (ω * ω) * ((1 - dy * dy) * ((r2 - r1) * (r1 + r2))) := by
      linear_combination (0.5 * (ω * ω) * (r2 * r2 - r1 * r1)) * hxz
    rw [heq]
    linarith [mul_le_mul_of_nonneg_right hω2 hcfac]
  have hpoly := gap_poly (r1 + r2) dy (r2 - r1) (by linarith) (by linarith)
  rw [getPotential_on_ray ω dx dy dz hunit r1 h3 h81,
    getPotential_on_ray ω dx dy dz hunit r2 h31 h8]
  have e1 : (r2 * r2 + 3 * r2 * dy + 2.25) - (r1 * r1 + 3 * r1 * dy + 2.25)
      = (r2 - r1) * ((r1 + r2) + 3 * dy) := by ring
  have e2 : (r2 * r2 - 4 * r2 * dy + 4) - (r1 * r1 - 4 * r1 * dy + 4)
      = (r2 - r1) * ((r1 + r2) - 4 * dy) := by ring
  rw [e1] at hg1
  rw [e2] at hg2
  ring_nf at hg1 hg2 hcent hpoly ⊢
  linarith [hg1, hg2, hcent, hpoly]

/-- Claim C3: for the default two-mass configuration with `G = 1` and any
`0 ≤ omega ≤ 0.05`, the potential is non-decreasing in the radius along every
unit direction over the solver bracket `[3, 8]`. -/
theorem getPotential_radial_mono (ω dx dy dz r1 r2 : ℝ)
    (hω0 : 0 ≤ ω) (hω : ω ≤ 0.05)
    (hunit : dx * dx + dy * dy + dz * dz = 1)
    (h3 : 3 ≤ r1) (h12 : r1 ≤ r2) (h8 : r2 ≤ 8) :
    getPotential ⟨defaultMasses, 1, ω⟩ (r1 * dx) (r1 * dy) (r1 * dz)
      ≤ getPotential ⟨defaultMasses, 1, ω⟩ (r2 * dx) (r2 * dy) (r2 * dz) := by
  have h := getPotential_gap ω dx dy dz r1 r2 hω0 hω hunit h3 h12 h8
  have hnn : (0:ℝ) ≤ (r2 - r1) * 0.0085 :=
    mul_nonneg (by linarith) (by norm_num)
  linarith [h, hnn]

/-- Witness for C3 at `omega = 0.05`, direction `(1,0,0)`, radii `3 ≤ 8`. -/
theorem getPotential_radial_mono_witness :
    getPotential ⟨defaultMasses, 1, 0.05⟩ (3 * 1) (3 * 0) (3 * 0)
      ≤ getPotential ⟨defaultMasses, 1, 0.05⟩ (8 * 1) (8 * 0) (8 * 0) :=
  getPotential_radial_mono 0.05 1 0 0 3 8 (by norm_num) (by norm_num)
    (by norm_num) (by norm_num) (by norm_num) (by norm_num)

/-! ## C4: solveRadius round-trip -/

/-- Bisection invariant: if the potential is strictly increasing along the ray
over `[3, 8]` and the target is the potential at `r0 ∈ [3, 8]`, then `r0` stays
inside the bracket at every iteration. -/
theorem solveLoop_keeps_root (sim : PhysicsSimulation) (dx dy dz r0 p : ℝ)
    (hp : p = getPotential sim (dx * r0) (dy * r0) (dz * r0))
    (hmono : ∀ r1 r2 : ℝ, 3 ≤ r1 → r1 < r2 → r2 ≤ 8 →
      getPotential sim (dx * r1) (dy * r1) (dz * r1)
        < getPotential sim (dx * r2) (dy * r2) (dz * r2))
    (h3 : 3 ≤ r0) (h8 : r0 ≤ 8) :
    ∀ n : ℕ, (solveLoop sim dx dy dz p n).1 ≤ r0 ∧
      r0 ≤ (solveLoop sim dx dy dz p n).2 := by
  intro n
  induction n with
  | zero =>
    constructor
    · show (3.0:ℝ) ≤ r0
      norm_num
      linarith
    · show r0 ≤ (8.0:ℝ)
      norm_num
      linarith
  | succ n ih =>
    obtain ⟨hl, hu⟩ := ih
    obtain ⟨hb3, hble, hb8⟩ := solveLoop_bounds sim dx dy dz p n
    rw [solveLoop, solveStep]
    by_cases hc : getPotential sim
        (dx * (((solveLoop sim dx dy dz p n).1 + (solveLoop sim dx dy dz p n).2) * 0.5))
        (dy * (((solveLoop sim dx dy dz p n).1 + (solveLoop sim dx dy dz p n).2) * 0.5))
        (dz * (((solveLoop sim dx dy dz p n).1 + (solveLoop sim dx dy dz p n).2) * 0.5)) < p
    · simp only [if_pos hc]
      refine ⟨?_, hu⟩
      by_contra hcon
      push_neg at hcon
      have hlt := hmono r0
        (((solveLoop sim dx dy dz p n).1 + (solveLoop sim dx dy dz p n).2) * 0.5)
        h3 hcon (by linarith)
      rw [← hp] at hlt
      exact lt_irrefl p (lt_trans hlt hc)
    · simp only [if_neg hc]
      refine ⟨hl, ?_⟩
      by_contra hcon
      push_neg at hcon
      have hlt := hmono
        (((solveLoop sim dx dy dz p n).1 + (solveLoop sim dx dy dz p n).2) * 0.5)
        r0 (by linarith) hcon h8
      rw [← hp] at hlt
      exact hc hlt

/-- Claim C4: for the default configuration with `0 ≤ omega ≤ 0.05`, a unit
direction and `r0` strictly inside `[3, 8]`, feeding
`p = getPotential(r0·dx, r0·dy, r0·dz)` back into `solveRadius` recovers `r0`
to within `1e-3`. -/
theorem solveRadius_roundtrip (ω dx dy dz r0 : ℝ)
    (hω0 : 0 ≤ ω) (hω : ω ≤ 0.05)
    (hunit : dx * dx + dy * dy + dz * dz = 1)
    (h3 : 3 < r0) (h8 : r0 < 8) :
    |solveRadius ⟨defaultMasses, 1, ω⟩ dx dy dz
        (getPotential ⟨defaultMasses, 1, ω⟩ (r0 * dx) (r0 * dy) (r0 * dz)) - r0|
      ≤ 0.001 := by
  have hmono : ∀ r1 r2 : ℝ, 3 ≤ r1 → r1 < r2 → r2 ≤ 8 →
      getPotential ⟨defaultMasses, 1, ω⟩ (dx * r1) (dy * r1) (dz * r1)
        < getPotential ⟨defaultMasses, 1, ω⟩ (dx * r2) (dy * r2) (dz * r2) := by
    intro r1 r2 ha hab hb
    rw [mul_comm dx r1, mul_comm dy r1, mul_comm dz r1,
      mul_comm dx r2, mul_comm dy r2, mul_comm dz r2]
    have hgap := getPotential_gap ω dx dy dz r1 r2 hω0 hω hunit ha (le_of_lt hab) hb
    have hpos : 0 < (r2 - r1) * 0.0085 := mul_pos (by linarith) (by norm_num)
    linarith
  have hp : getPotential ⟨defaultMasses, 1, ω⟩ (r0 * dx) (r0 * dy) (r0 * dz)
      = getPotential ⟨defaultMasses, 1, ω⟩ (dx * r0) (dy * r0) (dz * r0) := by
    rw [mul_comm dx r0, mul_comm dy r0, mul_comm dz r0]
  obtain ⟨hl, hu⟩ := solveLoop_keeps_root ⟨defaultMasses, 1, ω⟩ dx dy dz r0
    (getPotential ⟨defaultMasses, 1, ω⟩ (r0 * dx) (r0 * dy) (r0 * dz))
    hp hmono (le_of_lt h3) (le_of_lt h8) 15
  have hw := solveLoop_width ⟨defaultMasses, 1, ω⟩ dx dy dz
    (getPotential ⟨defaultMasses, 1, ω⟩ (r0 * dx) (r0 * dy) (r0 * dz)) 15
  have hw2 : (solveLoop ⟨defaultMasses, 1, ω⟩ dx dy dz
        (getPotential ⟨defaultMasses, 1, ω⟩ (r0 * dx) (r0 * dy) (r0 * dz)) 15).2
      - (solveLoop ⟨defaultMasses, 1, ω⟩ dx dy dz
        (getPotential ⟨defaultMasses, 1, ω⟩ (r0 * dx) (r0 * dy) (r0 * dz)) 15).1
      = 5 / 32768 := by
    rw [hw]; norm_num
  rw [solveRadius, abs_le]
  constructor
  · linarith
  · linarith

/-- Witness for C4 at `omega = 0`, direction `(1,0,0)`, `r0 = 4`. -/
theorem solveRadius_roundtrip_witness :
    |solveRadius ⟨defaultMasses, 1, 0⟩ 1 0 0
        (getPotential ⟨defaultMasses, 1, 0⟩ (4 * 1) (4 * 0) (4 * 0)) - 4| ≤ 0.001 :=
  solveRadius_roundtrip 0 1 0 0 4 (by norm_num) (by norm_num) (by norm_num)
    (by norm_num) (by norm_num)
